import Mathlib

/-!
Shallow embedding of the CSV processing pipeline in `parsing/app.py`
(repository IlyaSekunov/traffic-analysis): a chain of handlers
Loader → Cleaner → FeatureSelection → Split → SaveNumpy over a pandas
DataFrame, here modelled as a `Table` of cells.  Pandas `NaN` is the
missing-marker `Cell.missing`; `dropna`, `drop_duplicates` and `nunique`
all treat it the way pandas does (duplicate detection counts two `NaN`
cells as equal, `nunique` excludes them).
-/

/-- A cell of the table: the missing-marker (pandas `NaN`), a numeric value,
or a text value. -/
inductive Cell where
  | missing : Cell
  | num : Int → Cell
  | txt : String → Cell
deriving DecidableEq

/-- A pandas DataFrame: ordered column names and ordered rows of cells. -/
structure Table where
  cols : List String
  rows : List (List Cell)
deriving DecidableEq

/-- Well-formed table: every row has exactly one cell per column. -/
def Table.WF (t : Table) : Prop :=
  ∀ r ∈ t.rows, r.length = t.cols.length

instance (t : Table) : Decidable t.WF :=
  List.decidableBAll _ t.rows

/-- A row is fully empty when every cell is the missing-marker;
`data.dropna(how='all')` removes exactly these rows. -/
def allMissing (r : List Cell) : Bool :=
  r.all (fun c => c == Cell.missing)

/-- `data.drop_duplicates()`: keep each row only on its first occurrence.
`seen` accumulates the rows already encountered. -/
def dedupAux {α : Type} [DecidableEq α] (seen : List α) : List α → List α
  | [] => []
  | x :: xs => if x ∈ seen then dedupAux seen xs else x :: dedupAux (x :: seen) xs

/-- `CleanDataHandler.handle`: `data.dropna(how='all')` followed by
`data.drop_duplicates()`; column names are untouched. -/
def cleanData (t : Table) : Table :=
  { cols := t.cols,
    rows := dedupAux [] (t.rows.filter (fun r => !(allMissing r))) }

/-- The values of the column at index `i` (pandas `data[col]`). -/
def columnVals (rows : List (List Cell)) (i : Nat) : List Cell :=
  rows.map (fun r => r.getD i Cell.missing)

/-- pandas `Series.nunique()`: the number of distinct non-missing values. -/
def nunique (cs : List Cell) : Nat :=
  ((cs.filter (fun c => !(c == Cell.missing))).dedup).length

/-- `FeatureSelectionHandler` keeps the column at index `i` unless
`data[col].nunique() == len(data)` marks it for removal. -/
def keepCol (t : Table) (i : Nat) : Bool :=
  !(nunique (columnVals t.rows i) == t.rows.length)

/-- Keep the elements of a list whose index (counted from `i`) satisfies `p`. -/
def filterIdx {α : Type} (p : Nat → Bool) : Nat → List α → List α
  | _, [] => []
  | i, x :: xs => if p i then x :: filterIdx p (i + 1) xs else filterIdx p (i + 1) xs

/-- `FeatureSelectionHandler.handle`: mark every column whose distinct-value
count equals the row count (all decisions made against the input table) and
drop all marked columns in one pass. -/
def featureSelect (t : Table) : Table :=
  { cols := filterIdx (keepCol t) 0 t.cols,
    rows := t.rows.map (fun r => filterIdx (keepCol t) 0 r) }

/-- Dropping the single column at index `i` (pandas `data.drop(columns=[c])`). -/
def dropCol (t : Table) (i : Nat) : Table :=
  { cols := t.cols.eraseIdx i,
    rows := t.rows.map (fun r => r.eraseIdx i) }

/-- `SplitDataHandler.handle`: with fewer than two columns a `ValueError` is
raised; otherwise the last column becomes the target vector `y`, the
remaining columns in their existing order become the feature matrix `X`,
and the target column's name is recorded. -/
def splitData (t : Table) : Except String (List (List Cell) × List Cell × String) :=
  if t.cols.length < 2 then
    Except.error "Недостаточно столбцов для разделения"
  else
    Except.ok (t.rows.map (fun r => r.eraseIdx (t.cols.length - 1)),
      t.rows.map (fun r => r.getD (t.cols.length - 1) Cell.missing),
      t.cols.getD (t.cols.length - 1) "")

/-- The observable outcome of a run: the process exit status and the output
files present on disk afterwards. -/
structure RunResult where
  exitCode : Nat
  filesWritten : List String
deriving DecidableEq

/-- `SaveNumpyHandler.handle`: write `x_data.npy`, then `y_data.npy`.  `wOk`
abstracts the filesystem (whether `np.save` to a given path succeeds); a
failing write is caught and the process exits with status 1, and files
already written in the same run stay on disk. -/
def saveArrays (wOk : String → Bool) (dir : String) : RunResult :=
  if wOk (dir ++ "/x_data.npy") then
    if wOk (dir ++ "/y_data.npy") then
      { exitCode := 0, filesWritten := [dir ++ "/x_data.npy", dir ++ "/y_data.npy"] }
    else
      { exitCode := 1, filesWritten := [dir ++ "/x_data.npy"] }
  else
    { exitCode := 1, filesWritten := [] }

/-- `DataProcessingPipeline.process` from the point the table is loaded:
clean, select features, split, save.  A `ValueError` raised by the splitter
propagates through the handler chain to `process`, which exits with status 1
before the saver ever runs, so no output file is written in that case. -/
def pipelineRun (wOk : String → Bool) (dir : String) (t : Table) : RunResult :=
  match splitData (featureSelect (cleanData t)) with
  | Except.error _ => { exitCode := 1, filesWritten := [] }
  | Except.ok _ => saveArrays wOk dir

/-- A value stored in the shared `context` dictionary. -/
inductive MVal where
  | vStr : String → MVal
  | vShape : Nat → Nat → MVal
  | vStrList : List String → MVal
  | vMatrix : List (List Cell) → MVal
  | vVec : List Cell → MVal
deriving DecidableEq

/-- The two keys inserted when `process` builds the context dictionary. -/
def initCtxWrites (fp dir : String) : List (String × MVal) :=
  [("file_path", MVal.vStr fp), ("output_dir", MVal.vStr dir)]

/-- `DataLoaderHandler` records the original shape. -/
def loaderWrites (t : Table) : List (String × MVal) :=
  [("original_shape", MVal.vShape t.rows.length t.cols.length)]

/-- `CleanDataHandler` records the cleaned shape. -/
def cleanerWrites (t : Table) : List (String × MVal) :=
  [("cleaned_shape", MVal.vShape t.rows.length t.cols.length)]

/-- `FeatureSelectionHandler` records the surviving column names. -/
def selectorWrites (t : Table) : List (String × MVal) :=
  [("selected_features", MVal.vStrList t.cols)]

/-- `SplitDataHandler` records the two arrays and the target column name. -/
def splitterWrites (X : List (List Cell)) (y : List Cell) (tc : String) :
    List (String × MVal) :=
  [("X_data", MVal.vMatrix X), ("y_data", MVal.vVec y), ("target_column", MVal.vStr tc)]

/-- All writes to the context dictionary over one run, in program order.
The dictionary starts empty; the splitter writes nothing when it raises,
and `SaveNumpyHandler` writes no key at all. -/
def runWrites (fp dir : String) (t : Table) : List (String × MVal) :=
  initCtxWrites fp dir ++ loaderWrites t ++ cleanerWrites (cleanData t) ++
    selectorWrites (featureSelect (cleanData t)) ++
    (match splitData (featureSelect (cleanData t)) with
     | Except.error _ => []
     | Except.ok (X, y, tc) => splitterWrites X y tc)

/-- Spec wording of the cleaner's first removal: remove every row in which
all column values are the missing-marker. -/
def specRemoveEmptyRows (rows : List (List Cell)) : List (List Cell) :=
  rows.filter (fun r => !(allMissing r))

/-- Spec wording of the cleaner's second removal: a row is a duplicate if it
matches another row seen earlier (here `pre` lists all rows seen so far);
duplicates are removed, the first occurrence of each row is kept. -/
def specRemoveDupRows (pre : List (List Cell)) : List (List Cell) → List (List Cell)
  | [] => []
  | r :: rs =>
    if r ∈ pre then specRemoveDupRows (pre ++ [r]) rs
    else r :: specRemoveDupRows (pre ++ [r]) rs

/-! ### Helper lemmas about `dedupAux` -/

theorem dedupAux_sublist {α : Type} [DecidableEq α] :
    ∀ (seen l : List α), List.Sublist (dedupAux seen l) l
  | _, [] => List.Sublist.refl []
  | seen, x :: xs => by
    by_cases h : x ∈ seen
    · simpa [dedupAux, h] using List.Sublist.cons x (dedupAux_sublist seen xs)
    · simpa [dedupAux, h] using List.Sublist.cons₂ x (dedupAux_sublist (x :: seen) xs)

theorem dedupAux_nodup_and_notMem {α : Type} [DecidableEq α] :
    ∀ (seen l : List α), (dedupAux seen l).Nodup ∧ ∀ x ∈ dedupAux seen l, x ∉ seen
  | _, [] => by simp [dedupAux]
  | seen, x :: xs => by
    by_cases h : x ∈ seen
    · simpa [dedupAux, h] using dedupAux_nodup_and_notMem seen xs
    · have ih := dedupAux_nodup_and_notMem (x :: seen) xs
      simp only [dedupAux, h, if_false]
      constructor
      · refine List.nodup_cons.mpr ⟨fun hx => ?_, ih.1⟩
        exact (ih.2 x hx) (List.mem_cons_self x seen)
      · intro y hy
        rcases List.mem_cons.mp hy with rfl | hy'
        · exact h
        · exact fun hys => (ih.2 y hy') (List.mem_cons_of_mem x hys)

theorem dedupAux_eq_self {α : Type} [DecidableEq α] :
    ∀ (seen l : List α), l.Nodup → (∀ x ∈ l, x ∉ seen) → dedupAux seen l = l
  | _, [], _, _ => rfl
  | seen, x :: xs, hnd, hns => by
    have hx : x ∉ seen := hns x (List.mem_cons_self x xs)
    have hnd' := List.nodup_cons.mp hnd
    simp only [dedupAux, hx, if_false]
    refine congrArg (x :: ·) (dedupAux_eq_self (x :: seen) xs hnd'.2 ?_)
    intro y hy hys
    rcases List.mem_cons.mp hys with rfl | hys'
    · exact hnd'.1 hy
    · exact hns y (List.mem_cons_of_mem x hy) hys'

theorem dedupAux_eq_specRemoveDupRows :
    ∀ (seen pre l : List (List Cell)), (∀ r, r ∈ seen ↔ r ∈ pre) →
      dedupAux seen l = specRemoveDupRows pre l
  | _, _, [], _ => rfl
  | seen, pre, r :: rs, h => by
    have hext : ∀ x, x ∈ r :: seen ↔ x ∈ pre ++ [r] := by
      intro x
      simp only [List.mem_cons, List.mem_append, List.mem_singleton, h x]
      tauto
    by_cases hr : r ∈ seen
    · have hr' : r ∈ pre := (h r).mp hr
      have hext' : ∀ x, x ∈ seen ↔ x ∈ pre ++ [r] := by
        intro x
        simp only [List.mem_append, List.mem_singleton, h x]
        constructor
        · exact fun hx => Or.inl hx
        · rintro (hx | rfl)
          · exact hx
          · exact hr'
      simp only [dedupAux, specRemoveDupRows, hr, hr', if_true]
      exact dedupAux_eq_specRemoveDupRows seen (pre ++ [r]) rs hext'
    · have hr' : r ∉ pre := fun hx => hr ((h r).mpr hx)
      simp only [dedupAux, specRemoveDupRows, hr, hr', if_false]
      exact congrArg (r :: ·) (dedupAux_eq_specRemoveDupRows (r :: seen) (pre ++ [r]) rs hext)

/-! ### Helper lemmas about `filterIdx` -/

theorem filterIdx_sublist {α : Type} (p : Nat → Bool) :
    ∀ (i : Nat) (l : List α), List.Sublist (filterIdx p i l) l
  | _, [] => List.Sublist.refl []
  | i, x :: xs => by
    by_cases h : p i
    · simpa [filterIdx, h] using List.Sublist.cons₂ x (filterIdx_sublist p (i + 1) xs)
    · simpa [filterIdx, h] using List.Sublist.cons x (filterIdx_sublist p (i + 1) xs)

theorem getD_mem_filterIdx {α : Type} (p : Nat → Bool) (d : α) :
    ∀ (l : List α) (i j : Nat), j < l.length → p (i + j) = true →
      l.getD j d ∈ filterIdx p i l
  | [], _, j, hj, _ => absurd hj (Nat.not_lt_zero j)
  | x :: xs, i, 0, _, hp => by
    have hp' : p i = true := by simpa using hp
    simp [filterIdx, hp']
  | x :: xs, i, j + 1, hj, hp => by
    have hj' : j < xs.length := Nat.lt_of_succ_lt_succ hj
    have hp' : p ((i + 1) + j) = true := by
      have : (i + 1) + j = i + (j + 1) := by omega
      rw [this]; exact hp
    have ih := getD_mem_filterIdx p d xs (i + 1) j hj' hp'
    by_cases h : p i
    · simpa [filterIdx, h] using Or.inr ih
    · simpa [filterIdx, h] using ih

theorem filterIdx_all_false {α : Type} (p : Nat → Bool) (hp : ∀ j, p j = false) :
    ∀ (i : Nat) (l : List α), filterIdx p i l = []
  | _, [] => rfl
  | i, x :: xs => by
    simp [filterIdx, hp i, filterIdx_all_false p hp (i + 1) xs]

/-! ### Helper lemmas about `nunique` and columns -/

theorem length_filter_lt {α : Type} (p : α → Bool) (l : List α) (x : α)
    (hx : x ∈ l) (hpx : p x = false) : (l.filter p).length < l.length := by
  apply Nat.lt_of_le_of_ne (l.length_filter_le p)
  intro he
  have hpx' := (List.filter_length_eq_length.mp he) x hx
  rw [hpx] at hpx'
  cases hpx'

theorem dedup_length_lt {α : Type} [DecidableEq α] (l : List α) (h : ¬ l.Nodup) :
    l.dedup.length < l.length := by
  apply Nat.lt_of_le_of_ne (l.dedup_sublist.length_le)
  intro he
  exact h (List.dedup_eq_self.mp (l.dedup_sublist.eq_of_length he))

theorem nunique_le_length (cs : List Cell) : nunique cs ≤ cs.length :=
  Nat.le_trans (List.dedup_sublist _).length_le (cs.length_filter_le _)

theorem nunique_lt_of_missing_mem (cs : List Cell) (h : Cell.missing ∈ cs) :
    nunique cs < cs.length := by
  apply Nat.lt_of_le_of_lt (List.dedup_sublist _).length_le
  exact length_filter_lt _ cs Cell.missing h rfl

theorem count_filter_of_pred_true {α : Type} [DecidableEq α] (p : α → Bool) (v : α)
    (hp : p v = true) : ∀ l : List α, (l.filter p).count v = l.count v := by
  intro l
  induction l with
  | nil => rfl
  | cons x xs ih =>
    by_cases hx : p x = true
    · simp [List.filter_cons, hx, List.count_cons, ih]
    · have hvx : ¬ x = v := fun he => hx (he ▸ hp)
      simp [List.filter_cons, hx, List.count_cons, ih, hvx]

theorem nunique_lt_of_two_le_count (cs : List Cell) (v : Cell)
    (h : 2 ≤ cs.count v) : nunique cs < cs.length := by
  by_cases hv : v = Cell.missing
  · subst hv
    have hmem : Cell.missing ∈ cs := by
      have : 0 < cs.count Cell.missing := by omega
      exact List.count_pos_iff.mp this
    exact nunique_lt_of_missing_mem cs hmem
  · have hp : (fun c => !(c == Cell.missing)) v = true := by
      simp [hv]
    have hcnt : 2 ≤ (cs.filter (fun c => !(c == Cell.missing))).count v := by
      rw [count_filter_of_pred_true _ v hp cs]
      exact h
    have hnd : ¬ (cs.filter (fun c => !(c == Cell.missing))).Nodup := by
      intro hnd
      have := List.nodup_iff_count_le_one.mp hnd v
      omega
    exact Nat.lt_of_lt_of_le (dedup_length_lt _ hnd) (cs.length_filter_le _)

theorem length_columnVals (rows : List (List Cell)) (i : Nat) :
    (columnVals rows i).length = rows.length :=
  List.length_map rows _

theorem mem_featureSelect_cols (t : Table) (i : Nat) (hi : i < t.cols.length)
    (hk : keepCol t i = true) : t.cols.getD i "" ∈ (featureSelect t).cols := by
  have := getD_mem_filterIdx (keepCol t) "" t.cols 0 i hi (by simpa using hk)
  simpa [featureSelect] using this

/-! ### Helper lemmas about `List.eraseIdx` and `getD` -/

theorem getD_eraseIdx_of_lt {α : Type} (d : α) :
    ∀ (l : List α) (i j : Nat), j < i → (l.eraseIdx i).getD j d = l.getD j d
  | [], _, _, _ => rfl
  | _ :: _, 0, j, h => absurd h (Nat.not_lt_zero j)
  | _ :: _, _ + 1, 0, _ => rfl
  | _ :: xs, i + 1, j + 1, h =>
    getD_eraseIdx_of_lt d xs i j (Nat.lt_of_succ_lt_succ h)

theorem getD_eraseIdx_of_ge {α : Type} (d : α) :
    ∀ (l : List α) (i j : Nat), i ≤ j → i < l.length →
      (l.eraseIdx i).getD j d = l.getD (j + 1) d
  | [], i, _, _, hi => absurd hi (Nat.not_lt_zero i)
  | _ :: _, 0, _, _, _ => rfl
  | _ :: _, i + 1, 0, hij, _ => absurd hij (Nat.not_succ_le_zero i)
  | _ :: xs, i + 1, j + 1, hij, hi =>
    getD_eraseIdx_of_ge d xs i j (Nat.le_of_succ_le_succ hij) (Nat.lt_of_succ_lt_succ hi)

theorem columnVals_dropCol_of_lt (t : Table) (i j : Nat) (h : j < i) :
    columnVals (dropCol t i).rows j = columnVals t.rows j := by
  simp only [dropCol, columnVals, List.map_map]
  exact List.map_congr_left fun r _ => getD_eraseIdx_of_lt Cell.missing r i j h

theorem columnVals_dropCol_of_ge (t : Table) (wf : t.WF) (i j : Nat)
    (hij : i ≤ j) (hi : i < t.cols.length) :
    columnVals (dropCol t i).rows j = columnVals t.rows (j + 1) := by
  simp only [dropCol, columnVals, List.map_map]
  refine List.map_congr_left fun r hr => ?_
  exact getD_eraseIdx_of_ge Cell.missing r i j hij (by rw [wf r hr]; exact hi)

theorem dropCol_rows_length (t : Table) (i : Nat) :
    (dropCol t i).rows.length = t.rows.length := by
  simp [dropCol]

theorem keepCol_dropCol_of_lt (t : Table) (i j : Nat) (h : j < i) :
    keepCol (dropCol t i) j = keepCol t j := by
  simp only [keepCol, columnVals_dropCol_of_lt t i j h, dropCol_rows_length]

theorem keepCol_dropCol_of_ge (t : Table) (wf : t.WF) (i j : Nat)
    (hij : i ≤ j) (hi : i < t.cols.length) :
    keepCol (dropCol t i) j = keepCol t (j + 1) := by
  simp only [keepCol, columnVals_dropCol_of_ge t wf i j hij hi, dropCol_rows_length]

/-! ### Helper lemmas about `cleanData` -/

theorem cleanData_cols (t : Table) : (cleanData t).cols = t.cols := rfl

theorem cleanData_rows_length_le (t : Table) :
    (cleanData t).rows.length ≤ t.rows.length :=
  Nat.le_trans (dedupAux_sublist [] _).length_le (t.rows.length_filter_le _)

theorem cleanData_rows_pred (t : Table) :
    ∀ r ∈ (cleanData t).rows, (!(allMissing r)) = true := by
  intro r hr
  have hr' : r ∈ t.rows.filter (fun r => !(allMissing r)) :=
    (dedupAux_sublist [] _).subset hr
  exact (List.mem_filter.mp hr').2

theorem cleanData_idem (t : Table) : cleanData (cleanData t) = cleanData t := by
  have h1 : (cleanData t).rows.filter (fun r => !(allMissing r)) = (cleanData t).rows :=
    List.filter_eq_self.mpr (cleanData_rows_pred t)
  have h2 : dedupAux [] (cleanData t).rows = (cleanData t).rows := by
    apply dedupAux_eq_self
    · exact (dedupAux_nodup_and_notMem [] _).1
    · simp
  show ({ cols := (cleanData t).cols,
          rows := dedupAux [] ((cleanData t).rows.filter (fun r => !(allMissing r))) } : Table)
      = cleanData t
  rw [h1, h2]

/-! ### The claims -/

/-- Claim C1: for every (well-formed) table with at least two columns given
to the splitter, splitting succeeds, the feature matrix has row count equal
to the target vector's length and to the table's row count, every feature
row has one cell per non-target column (column count = table column count
− 1), and the feature rows are the table's rows with the last column
removed, the remaining columns keeping their existing order. -/
theorem claim1_splitter_shapes (t : Table) (wf : t.WF) (h2 : 2 ≤ t.cols.length) :
    ∃ X y tc, splitData t = Except.ok (X, y, tc)
      ∧ X.length = t.rows.length
      ∧ y.length = t.rows.length
      ∧ (∀ r ∈ X, r.length = t.cols.length - 1)
      ∧ X = t.rows.map List.dropLast := by
  have hlt : ¬ t.cols.length < 2 := Nat.not_lt.mpr h2
  refine ⟨t.rows.map (fun r => r.eraseIdx (t.cols.length - 1)),
    t.rows.map (fun r => r.getD (t.cols.length - 1) Cell.missing),
    t.cols.getD (t.cols.length - 1) "", ?_, ?_, ?_, ?_, ?_⟩
  · simp [splitData, hlt]
  · exact List.length_map _ _
  · exact List.length_map _ _
  · intro r hr
    rcases List.mem_map.mp hr with ⟨r0, hr0, rfl⟩
    have hlen : (t.cols.length - 1) < r0.length := by rw [wf r0 hr0]; omega
    have h1 : (r0.eraseIdx (t.cols.length - 1)).length = r0.length - 1 := by
      simp [List.length_eraseIdx, hlen]
    rw [h1, wf r0 hr0]
  · refine List.map_congr_left fun r hr => ?_
    have hlen : (t.cols.length - 1) + 1 = r.length := by rw [wf r hr]; omega
    exact (List.dropLast_eq_eraseIdx hlen).symm

theorem claim1_splitter_shapes_witness :
    (Table.WF { cols := ["a", "b"], rows := [[Cell.num 1, Cell.num 2]] }
      ∧ 2 ≤ (Table.mk ["a", "b"] [[Cell.num 1, Cell.num 2]]).cols.length)
    ∧ ∃ X y tc,
        splitData { cols := ["a", "b"], rows := [[Cell.num 1, Cell.num 2]] }
          = Except.ok (X, y, tc)
        ∧ X.length = 1 ∧ y.length = 1 ∧ (∀ r ∈ X, r.length = 1)
        ∧ X = [[Cell.num 1, Cell.num 2]].map List.dropLast := by
  refine ⟨⟨by decide, by decide⟩, ?_⟩
  exact claim1_splitter_shapes { cols := ["a", "b"], rows := [[Cell.num 1, Cell.num 2]] }
    (by decide) (by decide)

/-- Claim C2: when the table that reaches the splitter has fewer than two
columns, the splitter raises `ValueError`, the error propagates through the
pipeline to `process`, the process terminates with a non-zero exit status,
and no output file is written in that run. -/
theorem claim2_splitter_structural_failure (wOk : String → Bool) (dir : String)
    (t : Table) (h : (featureSelect (cleanData t)).cols.length < 2) :
    splitData (featureSelect (cleanData t))
      = Except.error "Недостаточно столбцов для разделения"
    ∧ pipelineRun wOk dir t = { exitCode := 1, filesWritten := [] } := by
  constructor
  · simp [splitData, h]
  · simp [pipelineRun, splitData, h]

theorem claim2_splitter_structural_failure_witness :
    ((featureSelect (cleanData { cols := ["a"], rows := [[Cell.num 1]] })).cols.length < 2)
    ∧ splitData (featureSelect (cleanData { cols := ["a"], rows := [[Cell.num 1]] }))
        = Except.error "Недостаточно столбцов для разделения"
    ∧ pipelineRun (fun _ => true) "." { cols := ["a"], rows := [[Cell.num 1]] }
        = { exitCode := 1, filesWritten := [] } := by
  refine ⟨by decide, ?_⟩
  exact claim2_splitter_structural_failure (fun _ => true) "."
    { cols := ["a"], rows := [[Cell.num 1]] } (by decide)

/-- Claim C3: the cleaner removes every fully-missing row first, then
removes exact-duplicate rows from the remainder keeping each first
occurrence, and these two removals in this order are its entire row
transformation (column names are untouched). -/
theorem claim3_cleaner_transformation (t : Table) :
    cleanData t
      = { cols := t.cols, rows := specRemoveDupRows [] (specRemoveEmptyRows t.rows) } := by
  unfold cleanData specRemoveEmptyRows
  rw [dedupAux_eq_specRemoveDupRows [] [] _ (fun r => Iff.rfl)]

/-- Claim C4: the cleaner never adds rows (output row count ≤ input row
count) and it is idempotent: cleaning an already-cleaned table changes
nothing. -/
theorem claim4_cleaner_monotone_idempotent (t : Table) :
    (cleanData t).rows.length ≤ t.rows.length
    ∧ cleanData (cleanData t) = cleanData t :=
  ⟨cleanData_rows_length_le t, cleanData_idem t⟩

/-- Claim C5: for every (well-formed) input table, the feature selector's
output column set is a subset of its input column set; any column containing
a value repeated at least twice (which entails at least two rows) is never
removed; and removal decisions for all columns are made against the
pre-removal table — removing any one column (`k`) never changes whether any
other column (`j`) is marked. -/
theorem claim5_feature_selector (t : Table) (wf : t.WF) :
    (featureSelect t).cols ⊆ t.cols
    ∧ (∀ i v, i < t.cols.length → 2 ≤ (columnVals t.rows i).count v →
        t.cols.getD i "" ∈ (featureSelect t).cols)
    ∧ (∀ k j, k < t.cols.length → j ≠ k →
        keepCol (dropCol t k) (if j < k then j else j - 1) = keepCol t j) := by
  refine ⟨(filterIdx_sublist (keepCol t) 0 t.cols).subset, ?_, ?_⟩
  · intro i v hi hv
    have hlt := nunique_lt_of_two_le_count _ v hv
    rw [length_columnVals] at hlt
    have hkeep : keepCol t i = true := by
      simp only [keepCol, Bool.not_eq_true', beq_eq_false_iff_ne, ne_eq]
      omega
    exact mem_featureSelect_cols t i hi hkeep
  · intro k j hk hjk
    by_cases hlt : j < k
    · simpa [hlt] using keepCol_dropCol_of_lt t k j hlt
    · have hkj : k < j := by omega
      have h := keepCol_dropCol_of_ge t wf k (j - 1) (by omega) hk
      have hj1 : j - 1 + 1 = j := by omega
      rw [hj1] at h
      simpa [hlt] using h

theorem claim5_feature_selector_witness :
    Table.WF { cols := ["a", "b"], rows := [[Cell.num 1, Cell.num 2], [Cell.num 1, Cell.num 3]] }
    ∧ ((featureSelect { cols := ["a", "b"], rows := [[Cell.num 1, Cell.num 2], [Cell.num 1, Cell.num 3]] }).cols
          ⊆ ["a", "b"]
        ∧ (∀ i v, i < (["a", "b"] : List String).length →
            2 ≤ (columnVals [[Cell.num 1, Cell.num 2], [Cell.num 1, Cell.num 3]] i).count v →
            (["a", "b"] : List String).getD i ""
              ∈ (featureSelect { cols := ["a", "b"], rows := [[Cell.num 1, Cell.num 2], [Cell.num 1, Cell.num 3]] }).cols)
        ∧ (∀ k j, k < (["a", "b"] : List String).length → j ≠ k →
            keepCol (dropCol { cols := ["a", "b"], rows := [[Cell.num 1, Cell.num 2], [Cell.num 1, Cell.num 3]] } k)
                (if j < k then j else j - 1)
              = keepCol { cols := ["a", "b"], rows := [[Cell.num 1, Cell.num 2], [Cell.num 1, Cell.num 3]] } j)) := by
  refine ⟨by decide, ?_⟩
  exact claim5_feature_selector
    { cols := ["a", "b"], rows := [[Cell.num 1, Cell.num 2], [Cell.num 1, Cell.num 3]] }
    (by decide)

/-- Claim C6: on a zero-row table the feature selector marks every column
for removal (each column's distinct-value count is 0, equal to the row
count 0), so its output has no columns at all. -/
theorem claim6_zero_row_table (t : Table) (h : t.rows = []) :
    (∀ i, keepCol t i = false) ∧ featureSelect t = { cols := [], rows := [] } := by
  have hk : ∀ i, keepCol t i = false := by
    intro i
    simp [keepCol, columnVals, nunique, h]
  refine ⟨hk, ?_⟩
  unfold featureSelect
  rw [h]
  simp [filterIdx_all_false (keepCol t) hk 0]

theorem claim6_zero_row_table_witness :
    ((Table.mk ["a", "b"] []).rows = [])
    ∧ (∀ i, keepCol { cols := ["a", "b"], rows := [] } i = false)
    ∧ featureSelect { cols := ["a", "b"], rows := [] } = { cols := [], rows := [] } := by
  refine ⟨rfl, ?_, ?_⟩
  · exact (claim6_zero_row_table { cols := ["a", "b"], rows := [] } rfl).1
  · exact (claim6_zero_row_table { cols := ["a", "b"], rows := [] } rfl).2

/-- Claim C7: the context dictionary is created empty at pipeline start and
is append-only throughout a run: the trace of key writes, in program order,
is one of two fixed key lists (depending on whether the splitter raised),
every initial entry is still present at the end, and the key trace has no
duplicates — no stage removes a key, and no stage overwrites a key written
by another stage (in particular never with an incompatible value type). -/
theorem claim7_context_append_only (fp dir : String) (t : Table) :
    ((runWrites fp dir t).map Prod.fst).Nodup
    ∧ (∀ kv ∈ initCtxWrites fp dir, kv ∈ runWrites fp dir t)
    ∧ ((runWrites fp dir t).map Prod.fst
          = ["file_path", "output_dir", "original_shape", "cleaned_shape",
             "selected_features"]
        ∨ (runWrites fp dir t).map Prod.fst
          = ["file_path", "output_dir", "original_shape", "cleaned_shape",
             "selected_features", "X_data", "y_data", "target_column"]) := by
  have hmem : ∀ kv ∈ initCtxWrites fp dir, kv ∈ runWrites fp dir t := by
    intro kv hkv
    unfold runWrites
    exact List.mem_append_left _
      (List.mem_append_left _ (List.mem_append_left _ (List.mem_append_left _ hkv)))
  cases hs : splitData (featureSelect (cleanData t)) with
  | error e =>
    have hkeys : (runWrites fp dir t).map Prod.fst
        = ["file_path", "output_dir", "original_shape", "cleaned_shape",
           "selected_features"] := by
      simp [runWrites, hs, initCtxWrites, loaderWrites, cleanerWrites, selectorWrites]
    exact ⟨by rw [hkeys]; decide, hmem, Or.inl hkeys⟩
  | ok val =>
    obtain ⟨X, y, tc⟩ := val
    have hkeys : (runWrites fp dir t).map Prod.fst
        = ["file_path", "output_dir", "original_shape", "cleaned_shape",
           "selected_features", "X_data", "y_data", "target_column"] := by
      simp [runWrites, hs, initCtxWrites, loaderWrites, cleanerWrites, selectorWrites,
        splitterWrites]
    exact ⟨by rw [hkeys]; decide, hmem, Or.inr hkeys⟩

/-- Claim C8: the column set after feature selection is a subset of the
column set after cleaning, and no stage reorders surviving columns: the
cleaner keeps the column list unchanged, the feature selector's output
columns are a subsequence of its input columns, and the feature matrix's
columns (all feature-selected columns but the last) are a subsequence of
the original columns, hence in original order. -/
theorem claim8_column_sets_and_order (t : Table) :
    (cleanData t).cols = t.cols
    ∧ (featureSelect (cleanData t)).cols ⊆ (cleanData t).cols
    ∧ List.Sublist (featureSelect (cleanData t)).cols (cleanData t).cols
    ∧ List.Sublist ((featureSelect (cleanData t)).cols.dropLast) t.cols := by
  refine ⟨rfl, (filterIdx_sublist _ 0 _).subset, filterIdx_sublist _ 0 _, ?_⟩
  exact (List.dropLast_sublist _).trans (filterIdx_sublist _ 0 _)

/-- Claim C9: if a write in the saver stage fails, the process exits with a
non-zero status, and an output file already written earlier in the same run
stays in place: when the feature-matrix file was written and the
target-vector write fails, `x_data.npy` remains on disk with no rollback. -/
theorem claim9_save_failure_no_rollback (wOk : String → Bool) (dir : String)
    (h : wOk (dir ++ "/x_data.npy") = false ∨ wOk (dir ++ "/y_data.npy") = false) :
    (saveArrays wOk dir).exitCode = 1
    ∧ (wOk (dir ++ "/x_data.npy") = true →
        saveArrays wOk dir = { exitCode := 1, filesWritten := [dir ++ "/x_data.npy"] }) := by
  cases hx : wOk (dir ++ "/x_data.npy") <;>
    cases hy : wOk (dir ++ "/y_data.npy") <;>
      simp_all [saveArrays]

theorem claim9_save_failure_no_rollback_witness :
    ((fun s => s == "./x_data.npy") ("./x_data.npy") = false
      ∨ (fun s => s == "./x_data.npy") ("./y_data.npy") = false)
    ∧ (saveArrays (fun s => s == "./x_data.npy") ".").exitCode = 1
    ∧ ((fun s => s == "./x_data.npy") ("./x_data.npy") = true →
        saveArrays (fun s => s == "./x_data.npy") "."
          = { exitCode := 1, filesWritten := ["./x_data.npy"] }) := by
  refine ⟨Or.inr (by decide), ?_⟩
  exact claim9_save_failure_no_rollback (fun s => s == "./x_data.npy") "."
    (Or.inr (by decide))

/-- Claim C10: in a table with at least one row, a column containing at
least one missing-marker is never removed by the feature selector, because
`nunique` excludes missing values and is therefore strictly below the row
count. -/
theorem claim10_missing_value_column_kept (t : Table) (i : Nat)
    (hi : i < t.cols.length) (_hrows : 0 < t.rows.length)
    (hm : Cell.missing ∈ columnVals t.rows i) :
    nunique (columnVals t.rows i) < t.rows.length
    ∧ t.cols.getD i "" ∈ (featureSelect t).cols := by
  have hlt := nunique_lt_of_missing_mem _ hm
  rw [length_columnVals] at hlt
  refine ⟨hlt, ?_⟩
  have hkeep : keepCol t i = true := by
    simp only [keepCol, Bool.not_eq_true', beq_eq_false_iff_ne, ne_eq]
    omega
  exact mem_featureSelect_cols t i hi hkeep

theorem claim10_missing_value_column_kept_witness :
    (0 < (Table.mk ["a", "b"] [[Cell.missing, Cell.num 1]]).cols.length
      ∧ 0 < (Table.mk ["a", "b"] [[Cell.missing, Cell.num 1]]).rows.length
      ∧ Cell.missing ∈ columnVals [[Cell.missing, Cell.num 1]] 0)
    ∧ nunique (columnVals [[Cell.missing, Cell.num 1]] 0)
        < (Table.mk ["a", "b"] [[Cell.missing, Cell.num 1]]).rows.length
    ∧ ["a", "b"].getD 0 ""
        ∈ (featureSelect { cols := ["a", "b"], rows := [[Cell.missing, Cell.num 1]] }).cols := by
  refine ⟨⟨by decide, by decide, by decide⟩, ?_⟩
  exact claim10_missing_value_column_kept
    { cols := ["a", "b"], rows := [[Cell.missing, Cell.num 1]] } 0
    (by decide) (by decide) (by decide)
